import Mathlib

/-!
Shallow embedding of the codetrust server (`src/server.js` and the
`analyzeReports` classifier of `util.js`).

JavaScript values that flow through the classifier and the report
fetcher are modelled by `JsVal`; the two in-memory `Map`s of the server
are modelled as association lists with JavaScript `Map` semantics
(`mapSet` replaces the value of an existing key, otherwise appends).
Request bodies of the registration endpoint are modelled well-typed
(`org` a string, `repos` a string list); the JavaScript falsiness test
`!org` then becomes `org = ""`.  Exceptions become `Except JsError`.
-/

/-- A JavaScript value, as far as the classifier and fetcher observe it:
strings, numbers, booleans, `undefined`, arrays and plain objects. -/
inductive JsVal where
  | vstr (s : String)
  | vnum (n : Int)
  | vbool (b : Bool)
  | vundefined
  | varr (elems : List JsVal)
  | vobj (props : List (String × JsVal))

/-- A thrown JavaScript exception: either a `TypeError` raised by the
runtime (e.g. calling `.includes` on `undefined`), or an explicitly
`throw`n `Error` carrying its message. -/
inductive JsError where
  | typeError
  | thrown (msg : String)
deriving DecidableEq

/-- JavaScript truthiness of a `JsVal` (`!v` is `!truthy v`). -/
def truthy : JsVal → Bool
  | .vstr s => !(s == "")
  | .vnum n => !(n == 0)
  | .vbool b => b
  | .vundefined => false
  | .varr _ => true
  | .vobj _ => true

/-- Property access / destructuring `v.k`: the first binding of `k` in
an object, `undefined` otherwise. -/
def getProp (v : JsVal) (k : String) : JsVal :=
  match v with
  | .vobj props =>
      match props.find? (fun p => p.1 == k) with
      | some p => p.2
      | none => .vundefined
  | _ => .vundefined

/-- JavaScript strict equality of a value against a string primitive
(`v === s`): true exactly for the identical string. -/
def strictEqStr (v : JsVal) (s : String) : Bool :=
  match v with
  | .vstr t => t == s
  | _ => false

/-- `pat.isPrefixOf l` over characters, auxiliary to `strIncludes`. -/
def charsHaveLead (pat : List Char) : List Char → Bool
  | [] => pat.isEmpty
  | c :: rest => pat.isPrefixOf (c :: rest) || charsHaveLead pat rest

/-- `s.includes(pat)` for strings: substring containment. -/
def strIncludes (s pat : String) : Bool :=
  charsHaveLead pat.data s.data

/-- `v.includes(marker)`: substring test on a string, SameValueZero
membership test on an array, and a `TypeError` on anything else
(in particular on `undefined`). -/
def jsIncludes (v : JsVal) (marker : String) : Except JsError Bool :=
  match v with
  | .vstr s => .ok (strIncludes s marker)
  | .varr l => .ok (l.any (fun x => strictEqStr x marker))
  | _ => .error .typeError

mutual

/-- JavaScript `ToString`, as used by template literals: identity on
strings, decimal on integers, `join(",")` on arrays. -/
def templateStr : JsVal → String
  | .vstr s => s
  | .vnum n => toString n
  | .vbool b => cond b "true" "false"
  | .vundefined => "undefined"
  | .vobj _ => "[object Object]"
  | .varr l => templateStrJoin l

/-- `Array.prototype.join(",")` of stringified elements. -/
def templateStrJoin : List JsVal → String
  | [] => ""
  | [v] => templateStr v
  | v :: rest => templateStr v ++ "," ++ templateStrJoin rest

end

/-- `Map.prototype.get` on an association list with unique keys. -/
def mapGet {α : Type} : List (String × α) → String → Option α
  | [], _ => none
  | (k', v') :: rest, k => if k' = k then some v' else mapGet rest k

/-- `Map.prototype.has`. -/
def mapHas {α : Type} (m : List (String × α)) (k : String) : Bool :=
  (mapGet m k).isSome

/-- `Map.prototype.set`: replace the value of an existing key, else
append a new binding. -/
def mapSet {α : Type} : List (String × α) → String → α → List (String × α)
  | [], k, v => [(k, v)]
  | (k', v') :: rest, k, v =>
      if k' = k then (k, v) :: rest else (k', v') :: mapSet rest k v

/-- In-place mutation of the value stored under an existing key
(`m.get(k).push(...)` patterns); a no-op when the key is absent. -/
def mapUpdate {α : Type} : List (String × α) → String → (α → α) → List (String × α)
  | [], _, _ => []
  | (k', v') :: rest, k, f =>
      if k' = k then (k, f v') :: rest else (k', v') :: mapUpdate rest k f

/-- The server's mutable registry: `installedRepositories` maps a repo
full name to its installation id, `orgRepositories` maps an org login
to its ordered list of repo full names. -/
structure RegistryState where
  installedRepositories : List (String × JsVal)
  orgRepositories : List (String × List String)

/-- `addRepository(repoFullName, orgName, installationId)`: set the
installation id, create the org's list if absent, then unconditionally
push the repo full name onto the org's list. -/
def addRepository (st : RegistryState) (repoFullName orgName : String)
    (installationId : JsVal) : RegistryState :=
  let installed := mapSet st.installedRepositories repoFullName installationId
  let orgs0 :=
    if mapHas st.orgRepositories orgName then st.orgRepositories
    else mapSet st.orgRepositories orgName []
  ⟨installed, mapUpdate orgs0 orgName (fun l => l ++ [repoFullName])⟩

/-- The `installation` branch of the webhook handler: replay every
listed repository into the registry via `addRepository`, with the
installing account's login and the payload's installation id. -/
def webhookInstallation (st : RegistryState) (fullNames : List String)
    (login : String) (installationId : JsVal) : RegistryState :=
  fullNames.foldl (fun s full_name => addRepository s full_name login installationId) st

example : (addRepository ⟨[], []⟩ "a/b" "o" (.vnum 1)).orgRepositories = [("o", ["a/b"])] := rfl
example :
    (addRepository (addRepository ⟨[], []⟩ "a/b" "o" (.vnum 1)) "a/b" "o" (.vnum 1)).orgRepositories
      = [("o", ["a/b", "a/b"])] := rfl

/-- Outcome of a `POST` handler: the registry state it leaves behind and
the HTTP status it responds with (response messages are human-readable
strings and are not modelled). -/
structure PostResult where
  state : RegistryState
  status : Nat

/-- The dedup-push loop of `POST /addOrgWithRepos`: for each repo, push
it onto the org's list unless the list already includes it. -/
def addReposDedup (orgs : List (String × List String)) (org : String)
    (repos : List String) : List (String × List String) :=
  repos.foldl
    (fun m repo =>
      if ((mapGet m org).getD []).contains repo then m
      else mapUpdate m org (fun l => l ++ [repo]))
    orgs

/-- Lines 64-66 of the handler: create the org's (empty) entry when it
is absent, before any further check. -/
def ensureOrg (st : RegistryState) (org : String) : RegistryState :=
  if mapHas st.orgRepositories org then st
  else ⟨st.installedRepositories, mapSet st.orgRepositories org []⟩

/-- Handler of `POST /addOrgWithRepos`: 400 on a falsy org or empty repo
list; otherwise it first ensures the org has an entry, then rejects the
whole batch with 400 if any repo is not installed, else dedup-pushes
every repo onto the org's list and responds 200. -/
def addOrgWithRepos (st : RegistryState) (org : String) (repos : List String) :
    PostResult :=
  if org = "" ∨ repos = [] then ⟨st, 400⟩
  else
    let st1 := ensureOrg st org
    let notInstalledRepos := repos.filter (fun repo => !(mapHas st1.installedRepositories repo))
    if 0 < notInstalledRepos.length then ⟨st1, 400⟩
    else ⟨⟨st1.installedRepositories, addReposDedup st1.orgRepositories org repos⟩, 200⟩

/-- Outcome of one upstream alert-listing request: the `.data` list on
success, or a thrown request error. -/
inductive UpstreamResult where
  | ok (data : List JsVal)
  | fail

/-- What `fetchSecurityReports` returns: either the two (possibly
sentinel-replaced) alert fields, or a record with a single error
message. -/
inductive FetchResult where
  | ok (codeql dependabot : JsVal)
  | err (msg : String)

/-- Sentinel marker the fetcher substitutes for an empty CodeQL list. -/
def noCodeqlAlerts : String := "✅ No CodeQL alerts"

/-- Sentinel marker the fetcher substitutes for an empty Dependabot list. -/
def noDependabotAlerts : String := "✅ No Dependabot alerts"

/-- `fetchSecurityReports`, as a function of the two upstream request
outcomes: on success of both, each empty alert list is replaced by its
sentinel string; if either request throws, the `catch` returns the
single-field error record. -/
def fetchSecurityReports (codeqlResp dependabotResp : UpstreamResult) : FetchResult :=
  match codeqlResp, dependabotResp with
  | .ok codeqlAlerts, .ok dependabotAlerts =>
      .ok (if 0 < codeqlAlerts.length then .varr codeqlAlerts else .vstr noCodeqlAlerts)
        (if 0 < dependabotAlerts.length then .varr dependabotAlerts else .vstr noDependabotAlerts)
  | _, _ => .err "Failed to fetch security reports"

/-- The `{ repoFullName, ...report }` object pushed for one repository:
spreads the fetch result, so the failure shape carries only
`repoFullName` and `error`. -/
def securityReport (repoFullName : String) (fr : FetchResult) : JsVal :=
  match fr with
  | .ok codeql dependabot =>
      .vobj [("repoFullName", .vstr repoFullName), ("codeql", codeql), ("dependabot", dependabot)]
  | .err msg => .vobj [("repoFullName", .vstr repoFullName), ("error", .vstr msg)]

/-- The report-collecting loop of `GET /checkIfSafeToUse`: for each repo
of the org, look up its installation id, `continue` when the id is
absent or falsy, otherwise push the repo's report.  `fetch` abstracts
the token minting plus `fetchSecurityReports` round trip per repo. -/
def collectReports (st : RegistryState) (repos : List String)
    (fetch : String → FetchResult) : List JsVal :=
  repos.foldl
    (fun reports repoFullName =>
      match mapGet st.installedRepositories repoFullName with
      | none => reports
      | some installationId =>
          if truthy installationId then
            reports ++ [securityReport repoFullName (fetch repoFullName)]
          else reports)
    []

/-- Outcome of a `GET` handler: state left behind, status, JSON body. -/
structure GetResult where
  state : RegistryState
  status : Nat
  body : JsVal

/-- Handler of `GET /checkIfSafeToUse` (first variant): 404 for an
unknown org, otherwise 200 with the collected reports as a JSON array. -/
def checkIfSafeToUse (st : RegistryState) (org : String)
    (fetch : String → FetchResult) : GetResult :=
  if mapHas st.orgRepositories org then
    ⟨st, 200, .varr (collectReports st ((mapGet st.orgRepositories org).getD []) fetch)⟩
  else
    ⟨st, 404, .vobj [("message", .vstr ("❌ No repositories found for org: " ++ org))]⟩

/-- Handler of `GET /checkIfSafeToUse` (second variant): identical loop,
but the 200 body wraps the array as `{ org, reports }`. -/
def checkIfSafeToUseV2 (st : RegistryState) (org : String)
    (fetch : String → FetchResult) : GetResult :=
  if mapHas st.orgRepositories org then
    ⟨st, 200,
      .vobj [("org", .vstr org),
        ("reports", .varr (collectReports st ((mapGet st.orgRepositories org).getD []) fetch))]⟩
  else
    ⟨st, 404, .vobj [("message", .vstr ("❌ No repositories found for org: " ++ org))]⟩

/-- A verdict object produced by the classifier. -/
structure Verdict where
  repoFullName : JsVal
  safeToUse : Bool
  message : String

/-- Sequential `Array.prototype.map` with a callback that may throw:
the first exception aborts the whole map. -/
def mapExcept {α β ε : Type} (f : α → Except ε β) : List α → Except ε (List β)
  | [] => .ok []
  | a :: as =>
      match f a with
      | .error e => .error e
      | .ok b =>
          match mapExcept f as with
          | .error e => .error e
          | .ok bs => .ok (b :: bs)

/-- The callback of `analyzeReports`: destructure the report, test both
fields for containment of the marker (`&&` and the message's `!c || !d`
short-circuit, so the dependabot field is only touched when the codeql
test passed), and build the verdict object. -/
def verdictOf (report : JsVal) : Except JsError Verdict :=
  let repoFullName := getProp report "repoFullName"
  match jsIncludes (getProp report "codeql") "✅" with
  | .error e => .error e
  | .ok c =>
      match (if c then jsIncludes (getProp report "dependabot") "✅" else .ok false) with
      | .error e => .error e
      | .ok d =>
          .ok
            { repoFullName := repoFullName
              safeToUse := c && d
              message :=
                if c && d then "✅ " ++ templateStr repoFullName ++ " is safe to use."
                else "❌ " ++ templateStr repoFullName ++ " is NOT safe to use due to security alerts." }

/-- Message of the explicit validation `throw` of `analyzeReports`. -/
def invalidInputMsg : String := "❌ Invalid input: reportList must be a non-empty array."

/-- `analyzeReports(reportList)`: throw the validation error unless the
input is a non-empty array, else map `verdictOf` over it (propagating
any exception the callback raises). -/
def analyzeReports (reportList : JsVal) : Except JsError (List Verdict) :=
  match reportList with
  | .varr l => if l.isEmpty then .error (.thrown invalidInputMsg) else mapExcept verdictOf l
  | _ => .error (.thrown invalidInputMsg)

example : strIncludes noCodeqlAlerts "✅" = true := rfl
example :
    analyzeReports (.varr [.vobj [("repoFullName", .vstr "a/b"),
      ("codeql", .vstr noCodeqlAlerts), ("dependabot", .vstr noDependabotAlerts)]])
      = .ok [⟨.vstr "a/b", true, "✅ a/b is safe to use."⟩] := rfl
example :
    analyzeReports (.varr [.vobj [("repoFullName", .vstr "a/b"),
      ("error", .vstr "Failed to fetch security reports")]]) = .error .typeError := rfl

/-- A repo has a present and truthy installation id in the registry. -/
def installedAndTruthy (st : RegistryState) (r : String) : Bool :=
  match mapGet st.installedRepositories r with
  | some installationId => truthy installationId
  | none => false

/-- Every repo full name appearing in some org's list is a key of
`installedRepositories`. -/
def RegistryInv (st : RegistryState) : Prop :=
  ∀ o l, (o, l) ∈ st.orgRepositories → ∀ r ∈ l, mapHas st.installedRepositories r = true

/-- States reachable from the initial empty registry by any sequence of
webhook `installation` events and `POST /addOrgWithRepos` requests. -/
inductive Reachable : RegistryState → Prop where
  | init : Reachable ⟨[], []⟩
  | webhook (st : RegistryState) (fullNames : List String) (login : String) (i : JsVal) :
      Reachable st → Reachable (webhookInstallation st fullNames login i)
  | register (st : RegistryState) (org : String) (repos : List String) :
      Reachable st → Reachable (addOrgWithRepos st org repos).state

/-- A field value as the fetcher produces it on success: either exactly
the clear sentinel string, or a non-empty array of alert objects. -/
def FetchedFieldShape (sentinel : String) (f : JsVal) : Prop :=
  f = .vstr sentinel ∨ ∃ l, f = .varr l ∧ l ≠ [] ∧ ∀ a ∈ l, ∃ props, a = .vobj props

/-- A report object in the shape the fetcher pushes on success. -/
def FetcherReportShape (r : JsVal) : Prop :=
  ∃ n cq db,
    r = .vobj [("repoFullName", .vstr n), ("codeql", cq), ("dependabot", db)]
      ∧ FetchedFieldShape noCodeqlAlerts cq ∧ FetchedFieldShape noDependabotAlerts db

/-- A field value on which `.includes` does not throw: a string or an
array. -/
def IncludableField (f : JsVal) : Prop :=
  (∃ s, f = .vstr s) ∨ ∃ l, f = .varr l

/-- Report with both alert fields clear, used to witness C1. -/
def c1Report : JsVal :=
  .vobj [("repoFullName", .vstr "a/b"), ("codeql", .vstr noCodeqlAlerts),
    ("dependabot", .vstr noDependabotAlerts)]

/-- Failure-shaped report (only `repoFullName` and `error`), as the
fetcher produces on an upstream error; used to refute C6. -/
def c6Report : JsVal :=
  .vobj [("repoFullName", .vstr "a/b"), ("error", .vstr "Failed to fetch security reports")]

/-- Report with clear fields, used to witness the ok part of C6. -/
def c6GoodReport : JsVal :=
  .vobj [("repoFullName", .vstr "g/h"), ("codeql", .vstr noCodeqlAlerts),
    ("dependabot", .vstr noDependabotAlerts)]

/-- Failure-shaped report used to witness C10. -/
def c10Report : JsVal :=
  .vobj [("repoFullName", .vstr "x/y"), ("error", .vstr "Failed to fetch security reports")]

/-- State with one registered org whose only repo has a falsy (zero)
installation id; used to refute C9. -/
def c9State : RegistryState := ⟨[("o/r", .vnum 0)], [("o", ["o/r"])]⟩

/-- Fetch stub used by the C9 counterexample. -/
def c9Fetch : String → FetchResult := fun _ => .err "Failed to fetch security reports"

/-- State with one registered org whose repo has a truthy installation
id; used to witness the amended C9. -/
def c9wState : RegistryState := ⟨[("p/q", .vnum 5)], [("ow2", ["p/q"])]⟩

/-- Fetch stub used by the C9 witness. -/
def c9wFetch : String → FetchResult :=
  fun _ => .ok (.vstr noCodeqlAlerts) (.vstr noDependabotAlerts)

/-! Lemmas about the association-list `Map` operations. -/

theorem mapGet_mapSet_self {α : Type} (m : List (String × α)) (k : String) (v : α) :
    mapGet (mapSet m k v) k = some v := by
  induction m with
  | nil => simp [mapSet, mapGet]
  | cons p rest ih =>
      by_cases h : p.1 = k
      · simp [mapSet, mapGet, h]
      · simp [mapSet, mapGet, h, ih]

theorem mapGet_mapSet_ne {α : Type} (m : List (String × α)) (k k' : String) (v : α)
    (h : k' ≠ k) : mapGet (mapSet m k v) k' = mapGet m k' := by
  have hks : k ≠ k' := Ne.symm h
  induction m with
  | nil => simp [mapSet, mapGet, hks]
  | cons p rest ih =>
      by_cases hp : p.1 = k
      · simp [mapSet, mapGet, hp, hks]
      · by_cases hp' : p.1 = k'
        · simp [mapSet, mapGet, hp, hp', h]
        · simp [mapSet, mapGet, hp, hp', ih]

theorem mapHas_iff_mapGet {α : Type} (m : List (String × α)) (k : String) :
    mapHas m k = true ↔ ∃ v, mapGet m k = some v := by
  unfold mapHas
  cases mapGet m k <;> simp

theorem mapHas_eq_false_iff {α : Type} (m : List (String × α)) (k : String) :
    mapHas m k = false ↔ mapGet m k = none := by
  unfold mapHas
  cases mapGet m k <;> simp

theorem mapGet_mapUpdate_self {α : Type} (m : List (String × α)) (k : String) (f : α → α) :
    mapGet (mapUpdate m k f) k = (mapGet m k).map f := by
  induction m with
  | nil => simp [mapUpdate, mapGet]
  | cons p rest ih =>
      by_cases h : p.1 = k
      · simp [mapUpdate, mapGet, h]
      · simp [mapUpdate, mapGet, h, ih]

theorem mapGet_mapUpdate_ne {α : Type} (m : List (String × α)) (k k' : String) (f : α → α)
    (h : k' ≠ k) : mapGet (mapUpdate m k f) k' = mapGet m k' := by
  have hks : k ≠ k' := Ne.symm h
  induction m with
  | nil => simp [mapUpdate, mapGet]
  | cons p rest ih =>
      by_cases hp : p.1 = k
      · simp [mapUpdate, mapGet, hp, hks]
      · by_cases hp' : p.1 = k'
        · simp [mapUpdate, mapGet, hp, hp', h]
        · simp [mapUpdate, mapGet, hp, hp', ih]

theorem mem_mapSet {α : Type} (m : List (String × α)) (k : String) (v : α) (p : String × α)
    (h : p ∈ mapSet m k v) : p ∈ m ∨ p = (k, v) := by
  induction m with
  | nil => simpa [mapSet] using h
  | cons q rest ih =>
      by_cases hq : q.1 = k
      · simp only [mapSet, hq, if_pos rfl] at h
        rcases List.mem_cons.mp h with h | h
        · exact Or.inr h
        · exact Or.inl (List.mem_cons_of_mem _ h)
      · simp only [mapSet, if_neg hq] at h
        rcases List.mem_cons.mp h with h | h
        · exact Or.inl (h ▸ List.mem_cons_self _ _)
        · rcases ih h with h | h
          · exact Or.inl (List.mem_cons_of_mem _ h)
          · exact Or.inr h

theorem mem_mapUpdate {α : Type} (m : List (String × α)) (k : String) (f : α → α)
    (p : String × α) (h : p ∈ mapUpdate m k f) :
    p ∈ m ∨ ∃ v, mapGet m k = some v ∧ p = (k, f v) := by
  induction m with
  | nil => simp [mapUpdate] at h
  | cons q rest ih =>
      by_cases hq : q.1 = k
      · simp only [mapUpdate, hq, if_pos rfl] at h
        rcases List.mem_cons.mp h with h | h
        · exact Or.inr ⟨q.2, by simp [mapGet, hq], h⟩
        · exact Or.inl (List.mem_cons_of_mem _ h)
      · simp only [mapUpdate, if_neg hq] at h
        rcases List.mem_cons.mp h with h | h
        · exact Or.inl (h ▸ List.mem_cons_self _ _)
        · rcases ih h with h | ⟨v, hv, hp⟩
          · exact Or.inl (List.mem_cons_of_mem _ h)
          · exact Or.inr ⟨v, by simp [mapGet, hq, hv], hp⟩

theorem mapGet_eq_some_of_mem_unique {α : Type} (m : List (String × α)) (k : String)
    (h : mapHas m k = true) : ∃ v, (k, v) ∈ m ∧ mapGet m k = some v := by
  induction m with
  | nil => simp [mapHas, mapGet] at h
  | cons q rest ih =>
      by_cases hq : q.1 = k
      · exact ⟨q.2, by simp [← hq], by simp [mapGet, hq]⟩
      · have h' : mapHas rest k = true := by simpa [mapHas, mapGet, hq] using h
        obtain ⟨v, hv, hg⟩ := ih h'
        exact ⟨v, List.mem_cons_of_mem _ hv, by simp [mapGet, hq, hg]⟩

theorem length_mapSet_of_absent {α : Type} (m : List (String × α)) (k : String) (v : α)
    (h : mapHas m k = false) : (mapSet m k v).length = m.length + 1 := by
  induction m with
  | nil => simp [mapSet]
  | cons q rest ih =>
      by_cases hq : q.1 = k
      · simp [mapHas, mapGet, hq] at h
      · have h' : mapHas rest k = false := by simpa [mapHas, mapGet, hq] using h
        simp [mapSet, hq, ih h']

theorem length_mapSet_of_present {α : Type} (m : List (String × α)) (k : String) (v : α)
    (h : mapHas m k = true) : (mapSet m k v).length = m.length := by
  induction m with
  | nil => simp [mapHas, mapGet] at h
  | cons q rest ih =>
      by_cases hq : q.1 = k
      · simp [mapSet, hq]
      · have h' : mapHas rest k = true := by simpa [mapHas, mapGet, hq] using h
        simp [mapSet, hq, ih h']

theorem length_mapUpdate {α : Type} (m : List (String × α)) (k : String) (f : α → α) :
    (mapUpdate m k f).length = m.length := by
  induction m with
  | nil => rfl
  | cons q rest ih =>
      by_cases hq : q.1 = k
      · simp [mapUpdate, hq]
      · simp [mapUpdate, hq, ih]

theorem mapGet_some_mem {α : Type} (m : List (String × α)) (k : String) (v : α)
    (h : mapGet m k = some v) : (k, v) ∈ m := by
  induction m with
  | nil => simp [mapGet] at h
  | cons q rest ih =>
      by_cases hq : q.1 = k
      · simp only [mapGet, hq, if_true, eq_self_iff_true, if_pos] at h
        rw [Option.some.injEq] at h
        subst h
        exact hq ▸ List.mem_cons_self _ _
      · simp only [mapGet, if_neg hq] at h
        exact List.mem_cons_of_mem _ (ih h)

theorem mapHas_mapSet_of_has {α : Type} (m : List (String × α)) (k k' : String) (v : α)
    (h : mapHas m k' = true) : mapHas (mapSet m k v) k' = true := by
  by_cases hk : k' = k
  · subst hk
    exact (mapHas_iff_mapGet _ _).mpr ⟨v, mapGet_mapSet_self m k' v⟩
  · rw [mapHas, mapGet_mapSet_ne m k k' v hk]
    exact h

theorem mapHas_mapSet_self {α : Type} (m : List (String × α)) (k : String) (v : α) :
    mapHas (mapSet m k v) k = true :=
  (mapHas_iff_mapGet _ _).mpr ⟨v, mapGet_mapSet_self m k v⟩

theorem mapHas_mapSet_ne {α : Type} (m : List (String × α)) (k k' : String) (v : α)
    (h : k' ≠ k) : mapHas (mapSet m k v) k' = mapHas m k' := by
  rw [mapHas, mapGet_mapSet_ne m k k' v h, mapHas]

/-! Lemmas about `addRepository` and the webhook installation fold. -/

theorem addRepository_installed (st : RegistryState) (r o : String) (i : JsVal) :
    (addRepository st r o i).installedRepositories = mapSet st.installedRepositories r i := rfl

theorem addRepository_orgGet_self (st : RegistryState) (r o : String) (i : JsVal) :
    mapGet (addRepository st r o i).orgRepositories o
      = some ((mapGet st.orgRepositories o).getD [] ++ [r]) := by
  unfold addRepository
  by_cases h : mapHas st.orgRepositories o = true
  · obtain ⟨v, hv⟩ := (mapHas_iff_mapGet _ _).mp h
    simp [h, mapGet_mapUpdate_self, hv]
  · have hn : mapGet st.orgRepositories o = none :=
      (mapHas_eq_false_iff _ _).mp (by simpa using h)
    simp [h, mapGet_mapUpdate_self, mapGet_mapSet_self, hn]

theorem addRepository_orgGet_ne (st : RegistryState) (r o o' : String) (i : JsVal)
    (h : o' ≠ o) :
    mapGet (addRepository st r o i).orgRepositories o' = mapGet st.orgRepositories o' := by
  unfold addRepository
  by_cases hh : mapHas st.orgRepositories o = true
  · simp only [hh, if_pos rfl]
    exact mapGet_mapUpdate_ne _ _ _ _ h
  · simp only [hh]
    rw [if_neg (by simp [hh]), mapGet_mapUpdate_ne _ _ _ _ h, mapGet_mapSet_ne _ _ _ _ h]

theorem webhookInstallation_cons (st : RegistryState) (a : String) (rest : List String)
    (login : String) (i : JsVal) :
    webhookInstallation st (a :: rest) login i
      = webhookInstallation (addRepository st a login i) rest login i := rfl

theorem webhookInstallation_orgGet_self (names : List String) (st : RegistryState)
    (login : String) (i : JsVal) (hne : names ≠ []) :
    mapGet (webhookInstallation st names login i).orgRepositories login
      = some ((mapGet st.orgRepositories login).getD [] ++ names) := by
  induction names generalizing st with
  | nil => exact absurd rfl hne
  | cons a rest ih =>
      rw [webhookInstallation_cons]
      cases rest with
      | nil =>
          show mapGet (addRepository st a login i).orgRepositories login = _
          rw [addRepository_orgGet_self]
      | cons b rest' =>
          rw [ih _ (by simp), addRepository_orgGet_self]
          simp

theorem webhookInstallation_orgGet_ne (names : List String) (st : RegistryState)
    (login o : String) (i : JsVal) (h : o ≠ login) :
    mapGet (webhookInstallation st names login i).orgRepositories o
      = mapGet st.orgRepositories o := by
  induction names generalizing st with
  | nil => rfl
  | cons a rest ih =>
      rw [webhookInstallation_cons, ih, addRepository_orgGet_ne _ _ _ _ _ h]

theorem webhookInstallation_installedGet_of_not_mem (names : List String)
    (st : RegistryState) (login r : String) (i : JsVal) (h : r ∉ names) :
    mapGet (webhookInstallation st names login i).installedRepositories r
      = mapGet st.installedRepositories r := by
  induction names generalizing st with
  | nil => rfl
  | cons a rest ih =>
      rw [webhookInstallation_cons, ih _ (fun hm => h (List.mem_cons_of_mem _ hm)),
        addRepository_installed,
        mapGet_mapSet_ne _ _ _ _ (fun he => h (by rw [he]; exact List.mem_cons_self _ _))]

theorem webhookInstallation_installedGet_of_mem (names : List String)
    (st : RegistryState) (login r : String) (i : JsVal)
    (hnd : names.Nodup) (h : r ∈ names) :
    mapGet (webhookInstallation st names login i).installedRepositories r = some i := by
  induction names generalizing st with
  | nil => simp at h
  | cons a rest ih =>
      rw [webhookInstallation_cons]
      rcases List.mem_cons.mp h with h | h
      · subst h
        have hnr : r ∉ rest := (List.nodup_cons.mp hnd).1
        rw [webhookInstallation_installedGet_of_not_mem _ _ _ _ _ hnr,
          addRepository_installed, mapGet_mapSet_self]
      · exact ih _ (List.nodup_cons.mp hnd).2 h

theorem webhookInstallation_installed_length (names : List String) (st : RegistryState)
    (login : String) (i : JsVal) (hnd : names.Nodup)
    (hfresh : ∀ r ∈ names, mapHas st.installedRepositories r = false) :
    (webhookInstallation st names login i).installedRepositories.length
      = st.installedRepositories.length + names.length := by
  induction names generalizing st with
  | nil => rfl
  | cons a rest ih =>
      rw [webhookInstallation_cons]
      have hfa : mapHas st.installedRepositories a = false :=
        hfresh a (List.mem_cons_self _ _)
      have hlen : (addRepository st a login i).installedRepositories.length
          = st.installedRepositories.length + 1 := by
        rw [addRepository_installed]
        exact length_mapSet_of_absent _ _ _ hfa
      rw [ih _ (List.nodup_cons.mp hnd).2, hlen]
      · simp [Nat.add_assoc, Nat.add_comm 1]
      · intro r hr
        have hra : r ≠ a := fun he => (List.nodup_cons.mp hnd).1 (by rw [← he]; exact hr)
        rw [addRepository_installed, mapHas_mapSet_ne _ _ _ _ hra]
        exact hfresh r (List.mem_cons_of_mem _ hr)

/-! Lemmas about the dedup-push loop of the registration endpoint. -/

theorem addReposDedup_mem (repos : List String) (m : List (String × List String))
    (org : String) (p : String × List String) (h : p ∈ addReposDedup m org repos) :
    ∃ l₀, (p.1, l₀) ∈ m ∧ ∀ x ∈ p.2, x ∈ l₀ ∨ x ∈ repos := by
  induction repos generalizing m with
  | nil => exact ⟨p.2, h, fun x hx => Or.inl hx⟩
  | cons rp rest ih =>
      simp only [addReposDedup, List.foldl_cons] at h
      by_cases hc : ((mapGet m org).getD []).contains rp = true
      · rw [if_pos hc] at h
        obtain ⟨l₀, hm, hsub⟩ := ih m h
        exact ⟨l₀, hm, fun x hx => (hsub x hx).imp id (List.mem_cons_of_mem _)⟩
      · rw [if_neg hc] at h
        obtain ⟨l₀, hm, hsub⟩ := ih _ h
        rcases mem_mapUpdate _ _ _ _ hm with hm' | ⟨v, hv, hp⟩
        · exact ⟨l₀, hm', fun x hx => (hsub x hx).imp id (List.mem_cons_of_mem _)⟩
        · refine ⟨v, ?_, ?_⟩
          · have := mapGet_some_mem _ _ _ hv
            rw [show p.1 = org from congrArg Prod.fst hp]
            exact this
          · intro x hx
            rcases hsub x hx with hx' | hx'
            · rw [show l₀ = v ++ [rp] from congrArg Prod.snd hp] at hx'
              rcases List.mem_append.mp hx' with hx'' | hx''
              · exact Or.inl hx''
              · have hxrp : x = rp := by simpa using hx''
                exact Or.inr (by rw [hxrp]; exact List.mem_cons_self _ _)
            · exact Or.inr (List.mem_cons_of_mem _ hx')

theorem addReposDedup_count_of_mem (repos : List String)
    (m : List (String × List String)) (org : String) (l : List String) (r : String)
    (hget : mapGet m org = some l) (hr : r ∈ l) :
    ∃ l', mapGet (addReposDedup m org repos) org = some l'
      ∧ List.count r l' = List.count r l ∧ r ∈ l' := by
  induction repos generalizing m l with
  | nil => exact ⟨l, hget, rfl, hr⟩
  | cons rp rest ih =>
      simp only [addReposDedup, List.foldl_cons]
      by_cases hc : ((mapGet m org).getD []).contains rp = true
      · rw [if_pos hc]
        exact ih m l hget hr
      · rw [if_neg hc]
        have hrp : rp ≠ r := by
          intro he
          subst he
          rw [hget] at hc
          simp only [Option.getD_some] at hc
          exact hc (by simpa using hr)
        have hget' : mapGet (mapUpdate m org (fun l0 => l0 ++ [rp])) org = some (l ++ [rp]) := by
          rw [mapGet_mapUpdate_self, hget]
          rfl
        obtain ⟨l', hg, hcnt, hmem⟩ :=
          ih _ (l ++ [rp]) hget' (List.mem_append.mpr (Or.inl hr))
        refine ⟨l', hg, ?_, hmem⟩
        rw [hcnt, List.count_append]
        simp [List.count_singleton, if_neg hrp]

/-! Characterization of the report-collecting loop. -/

theorem collectReports_foldl (st : RegistryState) (repos : List String)
    (fetch : String → FetchResult) (acc : List JsVal) :
    repos.foldl
        (fun reports repoFullName =>
          match mapGet st.installedRepositories repoFullName with
          | none => reports
          | some installationId =>
              if truthy installationId then
                reports ++ [securityReport repoFullName (fetch repoFullName)]
              else reports)
        acc
      = acc ++ (repos.filter (fun r => installedAndTruthy st r)).map
          (fun r => securityReport r (fetch r)) := by
  induction repos generalizing acc with
  | nil => simp
  | cons a rest ih =>
      simp only [List.foldl_cons]
      cases hg : mapGet st.installedRepositories a with
      | none =>
          rw [ih]
          simp [List.filter_cons, installedAndTruthy, hg]
      | some installationId =>
          by_cases ht : truthy installationId = true
          · simp only [ht, if_pos rfl]
            rw [ih]
            simp [List.filter_cons, installedAndTruthy, hg, ht]
          · simp only [ht]
            rw [if_neg (by simp [ht]), ih]
            simp [List.filter_cons, installedAndTruthy, hg, ht]

theorem collectReports_eq (st : RegistryState) (repos : List String)
    (fetch : String → FetchResult) :
    collectReports st repos fetch
      = (repos.filter (fun r => installedAndTruthy st r)).map
          (fun r => securityReport r (fetch r)) := by
  unfold collectReports
  rw [collectReports_foldl]
  simp

/-! The registry invariant and the states reachable through the
mutating entry points. -/

theorem registryInv_addRepository (st : RegistryState) (r o : String) (i : JsVal)
    (h : RegistryInv st) : RegistryInv (addRepository st r o i) := by
  intro o' l' hmem x hx
  rw [addRepository_installed]
  have hmem' : (o', l') ∈ mapUpdate
      (if mapHas st.orgRepositories o then st.orgRepositories
        else mapSet st.orgRepositories o []) o (fun l => l ++ [r]) := hmem
  rcases mem_mapUpdate _ _ _ _ hmem' with hm | ⟨v, hv, hp⟩
  · by_cases hh : mapHas st.orgRepositories o = true
    · rw [if_pos hh] at hm
      exact mapHas_mapSet_of_has _ _ _ _ (h o' l' hm x hx)
    · rw [if_neg hh] at hm
      rcases mem_mapSet _ _ _ _ hm with hm' | he
      · exact mapHas_mapSet_of_has _ _ _ _ (h o' l' hm' x hx)
      · have hl : l' = [] := congrArg Prod.snd he
        rw [hl] at hx
        simp at hx
  · have hl : l' = v ++ [r] := congrArg Prod.snd hp
    rw [hl] at hx
    rcases List.mem_append.mp hx with hx' | hx'
    · by_cases hh : mapHas st.orgRepositories o = true
      · rw [if_pos hh] at hv
        exact mapHas_mapSet_of_has _ _ _ _ (h o v (mapGet_some_mem _ _ _ hv) x hx')
      · rw [if_neg hh, mapGet_mapSet_self] at hv
        have hv' : v = [] := by
          have := hv
          injection this with h'
          exact h'.symm
        rw [hv'] at hx'
        simp at hx'
    · have hxr : x = r := by simpa using hx'
      rw [hxr]
      exact mapHas_mapSet_self _ _ _

theorem registryInv_webhookInstallation (names : List String) (st : RegistryState)
    (login : String) (i : JsVal) (h : RegistryInv st) :
    RegistryInv (webhookInstallation st names login i) := by
  induction names generalizing st with
  | nil => exact h
  | cons a rest ih =>
      rw [webhookInstallation_cons]
      exact ih _ (registryInv_addRepository st a login i h)

theorem ensureOrg_installed (st : RegistryState) (org : String) :
    (ensureOrg st org).installedRepositories = st.installedRepositories := by
  unfold ensureOrg
  split <;> rfl

theorem registryInv_ensureOrg (st : RegistryState) (org : String)
    (h : RegistryInv st) : RegistryInv (ensureOrg st org) := by
  unfold ensureOrg
  by_cases hh : mapHas st.orgRepositories org = true
  · rw [if_pos hh]
    exact h
  · rw [if_neg hh]
    intro o l hmem x hx
    rcases mem_mapSet _ _ _ _ hmem with hm | he
    · exact h o l hm x hx
    · have hl : l = [] := congrArg Prod.snd he
      rw [hl] at hx
      simp at hx

theorem registryInv_addOrgWithRepos (st : RegistryState) (org : String)
    (repos : List String) (h : RegistryInv st) :
    RegistryInv (addOrgWithRepos st org repos).state := by
  unfold addOrgWithRepos
  by_cases h0 : org = "" ∨ repos = []
  · rw [if_pos h0]
    exact h
  · rw [if_neg h0]
    by_cases h1 : 0 < (repos.filter
        (fun repo => !(mapHas (ensureOrg st org).installedRepositories repo))).length
    · rw [if_pos h1]
      exact registryInv_ensureOrg st org h
    · rw [if_neg h1]
      intro o l hmem x hx
      obtain ⟨l₀, hm0, hsub⟩ :=
        addReposDedup_mem repos (ensureOrg st org).orgRepositories org (o, l) hmem
      have hinv1 : RegistryInv (ensureOrg st org) := registryInv_ensureOrg st org h
      show mapHas (ensureOrg st org).installedRepositories x = true
      rcases hsub x hx with hx' | hx'
      · exact hinv1 o l₀ hm0 x hx'
      · by_contra hc
        have hfc : mapHas (ensureOrg st org).installedRepositories x = false := by
          cases hmh : mapHas (ensureOrg st org).installedRepositories x
          · rfl
          · exact absurd hmh hc
        have hmf : x ∈ repos.filter
            (fun repo => !(mapHas (ensureOrg st org).installedRepositories repo)) :=
          List.mem_filter.mpr ⟨hx', by simp [hfc]⟩
        exact h1 (List.length_pos.mpr (List.ne_nil_of_mem hmf))

/-! Lemmas about the classifier. -/

theorem jsIncludes_error (v : JsVal) (m : String) (e : JsError)
    (h : jsIncludes v m = .error e) : e = .typeError := by
  cases v <;> simp_all [jsIncludes]

theorem verdictOf_error (r : JsVal) (e : JsError) (h : verdictOf r = .error e) :
    e = .typeError := by
  unfold verdictOf at h
  cases hc : jsIncludes (getProp r "codeql") "✅" with
  | error e1 =>
      rw [hc] at h
      have h2 : (Except.error e1 : Except JsError Verdict) = .error e := h
      injection h2 with h'
      exact h' ▸ jsIncludes_error _ _ _ hc
  | ok c =>
      rw [hc] at h
      cases c with
      | false => exact Except.noConfusion h
      | true =>
          cases hd : jsIncludes (getProp r "dependabot") "✅" with
          | error e2 =>
              rw [hd] at h
              have h2 : (Except.error e2 : Except JsError Verdict) = .error e := h
              injection h2 with h'
              exact h' ▸ jsIncludes_error _ _ _ hd
          | ok d =>
              rw [hd] at h
              exact Except.noConfusion h

theorem mapExcept_error_of_mem {α β ε : Type} (f : α → Except ε β) (l : List α)
    (a : α) (e : ε) (ha : a ∈ l) (he : f a = .error e) :
    ∃ e', mapExcept f l = .error e' := by
  induction l with
  | nil => simp at ha
  | cons b rest ih =>
      cases hb : f b with
      | error eb => exact ⟨eb, by simp [mapExcept, hb]⟩
      | ok vb =>
          rcases List.mem_cons.mp ha with hab | harest
          · rw [hab] at he
            rw [he] at hb
            cases hb
          · obtain ⟨e', h'⟩ := ih harest
            exact ⟨e', by simp [mapExcept, hb, h']⟩

theorem mapExcept_ok_forall₂ {α β ε : Type} (f : α → Except ε β) (P : α → β → Prop)
    (l : List α) (h : ∀ a ∈ l, ∃ b, f a = .ok b ∧ P a b) :
    ∃ bs, mapExcept f l = .ok bs ∧ List.Forall₂ P l bs := by
  induction l with
  | nil => exact ⟨[], rfl, List.Forall₂.nil⟩
  | cons a rest ih =>
      obtain ⟨b, hb, hP⟩ := h a (List.mem_cons_self _ _)
      obtain ⟨bs, hbs, hF⟩ := ih (fun x hx => h x (List.mem_cons_of_mem _ hx))
      exact ⟨b :: bs, by simp [mapExcept, hb, hbs], List.Forall₂.cons hP hF⟩

theorem jsIncludes_of_shape (sentinel : String) (f : JsVal)
    (hsent : strIncludes sentinel "✅" = true) (h : FetchedFieldShape sentinel f) :
    ∃ c, jsIncludes f "✅" = .ok c ∧ (c = true ↔ f = .vstr sentinel) := by
  rcases h with h | ⟨l, hf, hne, hobj⟩
  · subst h
    exact ⟨true, by simp [jsIncludes, hsent], by simp⟩
  · subst hf
    refine ⟨l.any (fun x => strictEqStr x "✅"), rfl, ?_⟩
    have hfalse : l.any (fun x => strictEqStr x "✅") = false := by
      rw [List.any_eq_false]
      intro a ha
      obtain ⟨props, hp⟩ := hobj a ha
      subst hp
      simp [strictEqStr]
    rw [hfalse]
    simp

theorem getProp_report_name (n : String) (cq db : JsVal) :
    getProp (.vobj [("repoFullName", .vstr n), ("codeql", cq), ("dependabot", db)])
      "repoFullName" = .vstr n := rfl

theorem getProp_report_codeql (n : String) (cq db : JsVal) :
    getProp (.vobj [("repoFullName", .vstr n), ("codeql", cq), ("dependabot", db)])
      "codeql" = cq := rfl

theorem getProp_report_dependabot (n : String) (cq db : JsVal) :
    getProp (.vobj [("repoFullName", .vstr n), ("codeql", cq), ("dependabot", db)])
      "dependabot" = db := rfl

theorem getProp_errorReport_codeql (n m : JsVal) :
    getProp (.vobj [("repoFullName", n), ("error", m)]) "codeql" = .vundefined := rfl

theorem verdictOf_shaped (r : JsVal) (h : FetcherReportShape r) :
    ∃ v, verdictOf r = .ok v
      ∧ (v.safeToUse = true ↔
          (getProp r "codeql" = .vstr noCodeqlAlerts
            ∧ getProp r "dependabot" = .vstr noDependabotAlerts))
      ∧ (v.safeToUse = false → ∃ rest, v.message = "❌" ++ rest) := by
  obtain ⟨n, cq, db, hr, hcq, hdb⟩ := h
  subst hr
  obtain ⟨c, hc, hic⟩ := jsIncludes_of_shape _ _ (by decide) hcq
  obtain ⟨d, hd, hid⟩ := jsIncludes_of_shape _ _ (by decide) hdb
  rw [getProp_report_codeql, getProp_report_dependabot]
  cases c with
  | false =>
      refine ⟨⟨.vstr n, false, "❌ " ++ n ++ " is NOT safe to use due to security alerts."⟩,
        ?_, ?_, ?_⟩
      · unfold verdictOf
        rw [getProp_report_codeql, getProp_report_name, hc]
        rfl
      · constructor
        · intro hft
          exact absurd hft (by simp)
        · rintro ⟨h1, _⟩
          exact absurd (hic.mpr h1) (by simp)
      · intro _
        refine ⟨" " ++ n ++ " is NOT safe to use due to security alerts.", ?_⟩
        show ("❌ " ++ n ++ " is NOT safe to use due to security alerts.")
          = "❌" ++ (" " ++ n ++ " is NOT safe to use due to security alerts.")
        rw [show ("❌ " : String) = "❌" ++ " " from rfl]
        simp only [String.append_assoc]
  | true =>
      have hcq' : cq = .vstr noCodeqlAlerts := hic.mp rfl
      cases d with
      | false =>
          refine ⟨⟨.vstr n, false, "❌ " ++ n ++ " is NOT safe to use due to security alerts."⟩,
            ?_, ?_, ?_⟩
          · unfold verdictOf
            rw [getProp_report_codeql, getProp_report_dependabot, getProp_report_name, hc, hd]
            rfl
          · constructor
            · intro hft
              exact absurd hft (by simp)
            · rintro ⟨_, h2⟩
              exact absurd (hid.mpr h2) (by simp)
          · intro _
            refine ⟨" " ++ n ++ " is NOT safe to use due to security alerts.", ?_⟩
            show ("❌ " ++ n ++ " is NOT safe to use due to security alerts.")
              = "❌" ++ (" " ++ n ++ " is NOT safe to use due to security alerts.")
            rw [show ("❌ " : String) = "❌" ++ " " from rfl]
            simp only [String.append_assoc]
      | true =>
          have hdb' : db = .vstr noDependabotAlerts := hid.mp rfl
          refine ⟨⟨.vstr n, true, "✅ " ++ n ++ " is safe to use."⟩, ?_, ?_, ?_⟩
          · unfold verdictOf
            rw [getProp_report_codeql, getProp_report_dependabot, getProp_report_name, hc, hd]
            rfl
          · simp [hcq', hdb']
          · intro hf
            exact absurd hf (by simp)

theorem mapExcept_verdict_error_typeError (l : List JsVal) :
    ∀ e : JsError, mapExcept verdictOf l = .error e → e = .typeError := by
  induction l with
  | nil =>
      intro e h
      simp [mapExcept] at h
  | cons a rest ih =>
      intro e h
      cases ha : verdictOf a with
      | error ea =>
          simp only [mapExcept, ha] at h
          injection h with h'
          exact h' ▸ verdictOf_error _ _ ha
      | ok va =>
          cases hrest : mapExcept verdictOf rest with
          | error er =>
              simp only [mapExcept, ha, hrest] at h
              injection h with h'
              exact h' ▸ ih er hrest
          | ok vs => simp [mapExcept, ha, hrest] at h

theorem jsIncludes_ok_of_includable (f : JsVal) (h : IncludableField f) :
    ∃ c, jsIncludes f "✅" = .ok c := by
  rcases h with ⟨s, hf⟩ | ⟨l, hf⟩ <;> subst hf <;> exact ⟨_, rfl⟩

theorem verdictOf_ok_of_includable (r : JsVal)
    (h : IncludableField (getProp r "codeql") ∧ IncludableField (getProp r "dependabot")) :
    ∃ v, verdictOf r = .ok v := by
  obtain ⟨c, hc⟩ := jsIncludes_ok_of_includable _ h.1
  obtain ⟨d, hd⟩ := jsIncludes_ok_of_includable _ h.2
  unfold verdictOf
  rw [hc]
  cases c with
  | false => exact ⟨_, rfl⟩
  | true =>
      rw [hd]
      exact ⟨_, rfl⟩

/-- C1: for every report in a (fetcher-shaped, non-empty) list passed to
`analyzeReports`, the resulting verdict has `safeToUse = true` iff both
the `codeql` and the `dependabot` field are the clear sentinel strings
(as decided by the `.includes("✅")` containment check), and whenever
either is not clear, `safeToUse = false` and the verdict's message
starts with the failure marker. -/
theorem C1_analyzeReports_safe_iff_clear (rs : List JsVal) (hne : rs ≠ [])
    (hall : ∀ r ∈ rs, FetcherReportShape r) :
    ∃ vs, analyzeReports (.varr rs) = .ok vs ∧
      List.Forall₂ (fun r v =>
        (v.safeToUse = true ↔
          (getProp r "codeql" = .vstr noCodeqlAlerts
            ∧ getProp r "dependabot" = .vstr noDependabotAlerts))
        ∧ (v.safeToUse = false → ∃ rest, v.message = "❌" ++ rest)) rs vs := by
  obtain ⟨vs, hvs, hF⟩ :=
    mapExcept_ok_forall₂ verdictOf _ rs (fun r hr => verdictOf_shaped r (hall r hr))
  refine ⟨vs, ?_, hF⟩
  have hempty : rs.isEmpty = false := by
    cases rs with
    | nil => exact absurd rfl hne
    | cons a b => rfl
  have hred : analyzeReports (.varr rs)
      = if rs.isEmpty = true then .error (.thrown invalidInputMsg)
        else mapExcept verdictOf rs := rfl
  rw [hred, hempty]
  simpa using hvs

/-- Witness for C1 at a concrete one-report list. -/
theorem C1_witness :
    ∃ vs, analyzeReports (.varr [c1Report]) = .ok vs ∧
      List.Forall₂ (fun r v =>
        (v.safeToUse = true ↔
          (getProp r "codeql" = .vstr noCodeqlAlerts
            ∧ getProp r "dependabot" = .vstr noDependabotAlerts))
        ∧ (v.safeToUse = false → ∃ rest, v.message = "❌" ++ rest)) [c1Report] vs :=
  C1_analyzeReports_safe_iff_clear [c1Report] (by simp)
    (by
      intro r hr
      rw [List.mem_singleton.mp hr]
      exact ⟨"a/b", .vstr noCodeqlAlerts, .vstr noDependabotAlerts, rfl,
        Or.inl rfl, Or.inl rfl⟩)

/-- C6 counterexample: a non-empty (length-one) array input on which
`analyzeReports` nevertheless throws (a `TypeError`), so the classifier
does not return a verdict list for every non-empty list input. -/
theorem C6_counterexample :
    [c6Report].length = 1 ∧ analyzeReports (.varr [c6Report]) = .error .typeError :=
  ⟨rfl, rfl⟩

/-- C6 (amended): `analyzeReports` raises its explicit validation error
exactly when the input is not an array or is an empty array; on a
non-empty array whose reports' `codeql` and `dependabot` fields are
strings or arrays it returns a verdict list without throwing (absent
fields can still raise a `TypeError`, see C10). -/
theorem C6_analyzeReports_validation (v : JsVal) :
    (analyzeReports v = .error (.thrown invalidInputMsg)
      ↔ ((∀ l, v ≠ .varr l) ∨ v = .varr []))
    ∧ (∀ rs, v = .varr rs → rs ≠ [] →
        (∀ r ∈ rs, IncludableField (getProp r "codeql")
          ∧ IncludableField (getProp r "dependabot")) →
        ∃ vs, analyzeReports v = .ok vs) := by
  constructor
  · constructor
    · intro h
      cases v with
      | varr l =>
          by_cases hl : l.isEmpty = true
          · right
            rw [List.isEmpty_iff.mp hl]
          · exfalso
            have hl' : l.isEmpty = false := by
              cases hisc : l.isEmpty
              · rfl
              · exact absurd hisc hl
            have hred : analyzeReports (.varr l)
                = if l.isEmpty = true then .error (.thrown invalidInputMsg)
                  else mapExcept verdictOf l := rfl
            rw [hred, hl'] at h
            simp only [Bool.false_eq_true, if_false] at h
            have := mapExcept_verdict_error_typeError l _ h
            exact JsError.noConfusion this
      | vstr s => exact Or.inl (fun l hl => JsVal.noConfusion hl)
      | vnum n => exact Or.inl (fun l hl => JsVal.noConfusion hl)
      | vbool b => exact Or.inl (fun l hl => JsVal.noConfusion hl)
      | vundefined => exact Or.inl (fun l hl => JsVal.noConfusion hl)
      | vobj props => exact Or.inl (fun l hl => JsVal.noConfusion hl)
    · intro h
      rcases h with hna | hemp
      · cases v with
        | varr l => exact absurd rfl (hna l)
        | vstr s => rfl
        | vnum n => rfl
        | vbool b => rfl
        | vundefined => rfl
        | vobj props => rfl
      · rw [hemp]
        rfl
  · intro rs hv hne hgood
    subst hv
    obtain ⟨vs, hvs, _⟩ :=
      mapExcept_ok_forall₂ verdictOf (fun _ _ => True) rs
        (fun r hr => by
          obtain ⟨w, hw⟩ := verdictOf_ok_of_includable r (hgood r hr)
          exact ⟨w, hw, trivial⟩)
    have hempty : rs.isEmpty = false := by
      cases rs with
      | nil => exact absurd rfl hne
      | cons a b => rfl
    refine ⟨vs, ?_⟩
    have hred : analyzeReports (.varr rs)
        = if rs.isEmpty = true then .error (.thrown invalidInputMsg)
          else mapExcept verdictOf rs := rfl
    rw [hred, hempty]
    simpa using hvs

/-- Witness for the amended C6: a non-array input gets the validation
error, and a concrete non-empty well-shaped array gets a verdict list. -/
theorem C6_witness :
    analyzeReports (.vstr "nope") = .error (.thrown invalidInputMsg)
      ∧ ∃ vs, analyzeReports (.varr [c6GoodReport]) = .ok vs :=
  ⟨(C6_analyzeReports_validation (.vstr "nope")).1.mpr
      (Or.inl (fun l hl => JsVal.noConfusion hl)),
    (C6_analyzeReports_validation (.varr [c6GoodReport])).2 [c6GoodReport] rfl (by simp)
      (by
        intro r hr
        rw [List.mem_singleton.mp hr]
        exact ⟨Or.inl ⟨noCodeqlAlerts, rfl⟩, Or.inl ⟨noDependabotAlerts, rfl⟩⟩)⟩

/-- C10: for every list containing a report in the fetcher's failure
shape (a record with only `repoFullName` and `error`, so the `codeql`
and `dependabot` fields are absent), `analyzeReports` throws rather than
returning a verdict list, because `.includes` is applied to an absent
field. -/
theorem C10_analyzeReports_throws_on_error_shape (rs : List JsVal) (n m : JsVal)
    (hm : JsVal.vobj [("repoFullName", n), ("error", m)] ∈ rs) :
    ∃ e, analyzeReports (.varr rs) = .error e := by
  have hverd : verdictOf (JsVal.vobj [("repoFullName", n), ("error", m)])
      = .error .typeError := by
    unfold verdictOf
    rw [getProp_errorReport_codeql]
    rfl
  obtain ⟨e', he'⟩ := mapExcept_error_of_mem verdictOf rs _ _ hm hverd
  have hempty : rs.isEmpty = false := by
    cases rs with
    | nil => simp at hm
    | cons a b => rfl
  refine ⟨e', ?_⟩
  have hred : analyzeReports (.varr rs)
      = if rs.isEmpty = true then .error (.thrown invalidInputMsg)
        else mapExcept verdictOf rs := rfl
  rw [hred, hempty]
  simpa using he'

/-- Witness for C10 at a concrete one-report list. -/
theorem C10_witness : ∃ e, analyzeReports (.varr [c10Report]) = .error e :=
  C10_analyzeReports_throws_on_error_shape [c10Report] (.vstr "x/y")
    (.vstr "Failed to fetch security reports") (List.mem_singleton.mpr rfl)

/-- C7: if both upstream requests succeed, each empty alert list is
replaced in the result by its sentinel clear marker string and each
non-empty list is returned as-is; if either request fails, the result is
the record with the single `error` field. -/
theorem C7_fetchSecurityReports_spec (cr dr : UpstreamResult) :
    (∀ cq db, cr = .ok cq → dr = .ok db →
      ∃ c d, fetchSecurityReports cr dr = .ok c d
        ∧ (cq = [] → c = .vstr noCodeqlAlerts)
        ∧ (cq ≠ [] → c = .varr cq)
        ∧ (db = [] → d = .vstr noDependabotAlerts)
        ∧ (db ≠ [] → d = .varr db))
    ∧ ((cr = .fail ∨ dr = .fail) →
        fetchSecurityReports cr dr = .err "Failed to fetch security reports") := by
  constructor
  · intro cq db hcr hdr
    subst hcr
    subst hdr
    refine ⟨_, _, rfl, ?_, ?_, ?_, ?_⟩
    · intro h
      subst h
      rfl
    · intro h
      rw [if_pos (List.length_pos.mpr h)]
    · intro h
      subst h
      rfl
    · intro h
      rw [if_pos (List.length_pos.mpr h)]
  · intro h
    rcases h with h | h
    · subst h
      cases dr <;> rfl
    · subst h
      cases cr <;> rfl

/-- Witness for C7: empty and non-empty lists on success, and a failing
request. -/
theorem C7_witness :
    fetchSecurityReports (.ok []) (.ok [.vobj []])
        = .ok (.vstr noCodeqlAlerts) (.varr [.vobj []])
      ∧ fetchSecurityReports .fail (.ok []) = .err "Failed to fetch security reports" := by
  constructor
  · obtain ⟨c, d, heq, h1, _, _, h4⟩ :=
      (C7_fetchSecurityReports_spec (.ok []) (.ok [.vobj []])).1 [] [.vobj []] rfl rfl
    rw [heq, h1 rfl, h4 (by simp)]
  · exact (C7_fetchSecurityReports_spec .fail (.ok [])).2 (Or.inl rfl)

/-- C2 counterexample: rejecting a batch whose only repo is not
installed still mutates `orgRepositories` — the unknown org gets an
empty entry created before the installed check runs. -/
theorem C2_counterexample :
    (addOrgWithRepos ⟨[], []⟩ "o" ["r"]).status = 400
      ∧ (addOrgWithRepos ⟨[], []⟩ "o" ["r"]).state.orgRepositories = [("o", [])]
      ∧ (⟨[], []⟩ : RegistryState).orgRepositories = []
      ∧ mapHas (⟨[], []⟩ : RegistryState).installedRepositories "r" = false :=
  ⟨rfl, rfl, rfl, rfl⟩

/-- C2 (amended): a batch containing a non-installed repo is rejected
with 400; `installedRepositories` is unchanged and no org's repo list
gains any element — the only possible mutation is the creation of an
empty entry for the requested org when it was absent. -/
theorem C2_addOrgWithRepos_reject (st : RegistryState) (org : String)
    (repos : List String) (r : String) (horg : org ≠ "") (hr : r ∈ repos)
    (hni : mapHas st.installedRepositories r = false) :
    (addOrgWithRepos st org repos).status = 400
      ∧ (addOrgWithRepos st org repos).state.installedRepositories
          = st.installedRepositories
      ∧ (∀ o, o ≠ org →
          mapGet (addOrgWithRepos st org repos).state.orgRepositories o
            = mapGet st.orgRepositories o)
      ∧ (mapGet (addOrgWithRepos st org repos).state.orgRepositories org
            = mapGet st.orgRepositories org
          ∨ (mapGet st.orgRepositories org = none
              ∧ mapGet (addOrgWithRepos st org repos).state.orgRepositories org
                  = some [])) := by
  have hval : ¬(org = "" ∨ repos = []) := by
    rintro (h | h)
    · exact horg h
    · rw [h] at hr
      simp at hr
  have hfil : 0 < (repos.filter
      (fun repo => !(mapHas (ensureOrg st org).installedRepositories repo))).length := by
    have hmem : r ∈ repos.filter
        (fun repo => !(mapHas (ensureOrg st org).installedRepositories repo)) :=
      List.mem_filter.mpr ⟨hr, by rw [ensureOrg_installed]; simp [hni]⟩
    exact List.length_pos.mpr (List.ne_nil_of_mem hmem)
  have hred : addOrgWithRepos st org repos = ⟨ensureOrg st org, 400⟩ := by
    unfold addOrgWithRepos
    rw [if_neg hval, if_pos hfil]
  rw [hred]
  refine ⟨rfl, ensureOrg_installed st org, ?_, ?_⟩
  · intro o ho
    show mapGet (ensureOrg st org).orgRepositories o = mapGet st.orgRepositories o
    unfold ensureOrg
    by_cases hh : mapHas st.orgRepositories org = true
    · rw [if_pos hh]
    · rw [if_neg hh]
      exact mapGet_mapSet_ne _ _ _ _ ho
  · by_cases hh : mapHas st.orgRepositories org = true
    · left
      show mapGet (ensureOrg st org).orgRepositories org = mapGet st.orgRepositories org
      unfold ensureOrg
      rw [if_pos hh]
    · right
      refine ⟨(mapHas_eq_false_iff _ _).mp (by simpa using hh), ?_⟩
      show mapGet (ensureOrg st org).orgRepositories org = some []
      unfold ensureOrg
      rw [if_neg hh]
      exact mapGet_mapSet_self _ _ _

/-- Witness for the amended C2 at a concrete rejected batch. -/
theorem C2_witness :
    (addOrgWithRepos ⟨[], []⟩ "ow" ["rw/x"]).status = 400
      ∧ (addOrgWithRepos ⟨[], []⟩ "ow" ["rw/x"]).state.installedRepositories
          = (⟨[], []⟩ : RegistryState).installedRepositories
      ∧ (∀ o, o ≠ "ow" →
          mapGet (addOrgWithRepos ⟨[], []⟩ "ow" ["rw/x"]).state.orgRepositories o
            = mapGet (⟨[], []⟩ : RegistryState).orgRepositories o)
      ∧ (mapGet (addOrgWithRepos ⟨[], []⟩ "ow" ["rw/x"]).state.orgRepositories "ow"
            = mapGet (⟨[], []⟩ : RegistryState).orgRepositories "ow"
          ∨ (mapGet (⟨[], []⟩ : RegistryState).orgRepositories "ow" = none
              ∧ mapGet (addOrgWithRepos ⟨[], []⟩ "ow" ["rw/x"]).state.orgRepositories "ow"
                  = some [])) :=
  C2_addOrgWithRepos_reject ⟨[], []⟩ "ow" ["rw/x"] "rw/x" (by simp)
    (List.mem_singleton.mpr rfl) rfl

/-- C3 counterexample: calling `addRepository` twice with the same repo
and org duplicates the repo in the org's list, so the upsert is not
idempotent on `orgRepositories`. -/
theorem C3_counterexample :
    mapGet (addRepository ⟨[], []⟩ "x/y" "orgd" (.vnum 7)).orgRepositories "orgd"
        = some ["x/y"]
      ∧ mapGet (addRepository (addRepository ⟨[], []⟩ "x/y" "orgd" (.vnum 7))
          "x/y" "orgd" (.vnum 7)).orgRepositories "orgd" = some ["x/y", "x/y"] :=
  ⟨rfl, rfl⟩

/-- C3 (amended): `addRepository` is idempotent on
`installedRepositories` but appends unconditionally to the org's list
(so re-adding through it duplicates the repo); re-adding a repo already
present in the org's list through `addOrgWithRepos` does not change its
multiplicity. -/
theorem C3_readd_behavior (st : RegistryState) (r o : String) (i : JsVal)
    (org' : String) (repos : List String) (l : List String) (x : String)
    (hget : mapGet st.orgRepositories org' = some l) (hx : x ∈ l) :
    (addRepository (addRepository st r o i) r o i).installedRepositories
        = (addRepository st r o i).installedRepositories
      ∧ ∃ l', mapGet (addOrgWithRepos st org' repos).state.orgRepositories org' = some l'
          ∧ List.count x l' = List.count x l := by
  constructor
  · rw [addRepository_installed, addRepository_installed]
    induction st.installedRepositories with
    | nil => simp [mapSet]
    | cons p rest ih =>
        by_cases hp : p.1 = r
        · simp [mapSet, hp]
        · simp [mapSet, hp, ih]
  · have hhas : mapHas st.orgRepositories org' = true :=
      (mapHas_iff_mapGet _ _).mpr ⟨l, hget⟩
    have hens : ensureOrg st org' = st := by
      unfold ensureOrg
      rw [if_pos hhas]
    unfold addOrgWithRepos
    by_cases h0 : org' = "" ∨ repos = []
    · rw [if_pos h0]
      exact ⟨l, hget, rfl⟩
    · rw [if_neg h0]
      by_cases h1 : 0 < (repos.filter
          (fun repo => !(mapHas (ensureOrg st org').installedRepositories repo))).length
      · rw [if_pos h1]
        rw [hens]
        exact ⟨l, hget, rfl⟩
      · rw [if_neg h1]
        have hget1 : mapGet (ensureOrg st org').orgRepositories org' = some l := by
          rw [hens]
          exact hget
        obtain ⟨l', hg, hcnt, _⟩ :=
          addReposDedup_count_of_mem repos (ensureOrg st org').orgRepositories org' l x
            hget1 hx
        exact ⟨l', hg, hcnt⟩

/-- Witness for the amended C3 at concrete states. -/
theorem C3_witness :
    (addRepository (addRepository ⟨[], [("og", ["q/w"])]⟩ "q/w" "og" (.vnum 4)) "q/w" "og"
        (.vnum 4)).installedRepositories
      = (addRepository ⟨[], [("og", ["q/w"])]⟩ "q/w" "og" (.vnum 4)).installedRepositories
    ∧ ∃ l', mapGet (addOrgWithRepos ⟨[], [("og", ["q/w"])]⟩ "og" ["q/w"]).state.orgRepositories
          "og" = some l'
        ∧ List.count "q/w" l' = List.count "q/w" ["q/w"] :=
  C3_readd_behavior ⟨[], [("og", ["q/w"])]⟩ "q/w" "og" (.vnum 4) "og" ["q/w"] ["q/w"] "q/w"
    rfl (List.mem_singleton.mpr rfl)

/-- C4 counterexample: replaying an installation event for an already
installed repo adds no new entry to `installedRepositories` (its length
stays 1 instead of growing by N = 1) and duplicates the repo in the
org's list. -/
theorem C4_counterexample :
    (webhookInstallation ⟨[], []⟩ ["c/d"] "orgc" (.vnum 9)).installedRepositories.length = 1
      ∧ (webhookInstallation (webhookInstallation ⟨[], []⟩ ["c/d"] "orgc" (.vnum 9))
          ["c/d"] "orgc" (.vnum 9)).installedRepositories.length = 1
      ∧ mapGet (webhookInstallation (webhookInstallation ⟨[], []⟩ ["c/d"] "orgc" (.vnum 9))
          ["c/d"] "orgc" (.vnum 9)).orgRepositories "orgc" = some ["c/d", "c/d"] :=
  ⟨rfl, rfl, rfl⟩

/-- C4 (amended): an installation event with N distinct repositories
none of which is already installed or already in the installing org's
list adds exactly N entries to `installedRepositories` (each mapped to
the installation id) and the org's list then contains each of the N
exactly once. -/
theorem C4_webhookInstallation_fresh (st : RegistryState) (names : List String)
    (login : String) (i : JsVal) (hnd : names.Nodup)
    (hfresh : ∀ r ∈ names, mapHas st.installedRepositories r = false)
    (hnew : ∀ r ∈ names, r ∉ (mapGet st.orgRepositories login).getD []) :
    (webhookInstallation st names login i).installedRepositories.length
        = st.installedRepositories.length + names.length
      ∧ (∀ r ∈ names,
          mapGet (webhookInstallation st names login i).installedRepositories r = some i)
      ∧ (∀ r ∈ names,
          List.count r
            ((mapGet (webhookInstallation st names login i).orgRepositories login).getD [])
            = 1) := by
  refine ⟨webhookInstallation_installed_length names st login i hnd hfresh,
    fun r hr => webhookInstallation_installedGet_of_mem names st login r i hnd hr, ?_⟩
  intro r hr
  rw [webhookInstallation_orgGet_self names st login i (List.ne_nil_of_mem hr)]
  simp only [Option.getD_some]
  rw [List.count_append, List.count_eq_zero.mpr (hnew r hr),
    List.count_eq_one_of_mem hnd hr]

/-- Witness for the amended C4 at a concrete fresh installation. -/
theorem C4_witness :
    (webhookInstallation ⟨[], []⟩ ["m/n", "m/o"] "om" (.vnum 3)).installedRepositories.length
        = (⟨[], []⟩ : RegistryState).installedRepositories.length + ["m/n", "m/o"].length
      ∧ (∀ r ∈ ["m/n", "m/o"],
          mapGet (webhookInstallation ⟨[], []⟩ ["m/n", "m/o"] "om"
            (.vnum 3)).installedRepositories r = some (.vnum 3))
      ∧ (∀ r ∈ ["m/n", "m/o"],
          List.count r
            ((mapGet (webhookInstallation ⟨[], []⟩ ["m/n", "m/o"] "om"
              (.vnum 3)).orgRepositories "om").getD []) = 1) :=
  C4_webhookInstallation_fresh ⟨[], []⟩ ["m/n", "m/o"] "om" (.vnum 3) (by simp)
    (fun r _ => rfl) (by simp [mapGet])

/-- C5: in every state reachable by any sequence of webhook
installation events and registration requests, every repo full name in
some org's list is also a key of `installedRepositories`. -/
theorem C5_reachable_registryInv (st : RegistryState) (h : Reachable st) :
    RegistryInv st := by
  induction h with
  | init =>
      intro o l hmem x hx
      simp at hmem
  | webhook st names login i _ ih =>
      exact registryInv_webhookInstallation names st login i ih
  | register st org repos _ ih =>
      exact registryInv_addOrgWithRepos st org repos ih

/-- Witness for C5 at a concrete reachable state. -/
theorem C5_witness : RegistryInv (webhookInstallation ⟨[], []⟩ ["w/x"] "ow" (.vnum 2)) :=
  C5_reachable_registryInv _ (Reachable.webhook _ _ _ _ Reachable.init)

/-- C8: `GET /checkIfSafeToUse` for an org that is not a key of
`orgRepositories` responds 404 and leaves the registry unchanged, in
both handler variants. -/
theorem C8_checkIfSafeToUse_unknown_org (st : RegistryState) (org : String)
    (fetch fetch2 : String → FetchResult) (h : mapHas st.orgRepositories org = false) :
    (checkIfSafeToUse st org fetch).status = 404
      ∧ (checkIfSafeToUse st org fetch).state = st
      ∧ (checkIfSafeToUseV2 st org fetch2).status = 404
      ∧ (checkIfSafeToUseV2 st org fetch2).state = st := by
  unfold checkIfSafeToUse checkIfSafeToUseV2
  rw [h]
  simp

/-- Witness for C8 at the empty registry. -/
theorem C8_witness :
    (checkIfSafeToUse ⟨[], []⟩ "zz" (fun _ => .err "x")).status = 404
      ∧ (checkIfSafeToUse ⟨[], []⟩ "zz" (fun _ => .err "x")).state = ⟨[], []⟩
      ∧ (checkIfSafeToUseV2 ⟨[], []⟩ "zz" (fun _ => .err "x")).status = 404
      ∧ (checkIfSafeToUseV2 ⟨[], []⟩ "zz" (fun _ => .err "x")).state = ⟨[], []⟩ :=
  C8_checkIfSafeToUse_unknown_org ⟨[], []⟩ "zz" _ _ rfl

theorem forall₂_map_self {α β : Type} (P : α → β → Prop) (f : α → β) (l : List α)
    (h : ∀ a ∈ l, P a (f a)) : List.Forall₂ P l (l.map f) := by
  induction l with
  | nil => exact .nil
  | cons a rest ih =>
      exact .cons (h a (List.mem_cons_self _ _))
        (ih (fun x hx => h x (List.mem_cons_of_mem _ hx)))

theorem securityReport_spec (r : String) (fr : FetchResult) :
    getProp (securityReport r fr) "repoFullName" = .vstr r
      ∧ ((∃ c d, securityReport r fr
            = .vobj [("repoFullName", .vstr r), ("codeql", c), ("dependabot", d)])
        ∨ ∃ msg, securityReport r fr
            = .vobj [("repoFullName", .vstr r), ("error", .vstr msg)]) := by
  cases fr with
  | ok c d => exact ⟨rfl, Or.inl ⟨c, d, rfl⟩⟩
  | err m => exact ⟨rfl, Or.inr ⟨m, rfl⟩⟩

/-- C9 counterexample: the org is known and has one repository, yet the
first handler's 200 body is an empty array (the repo is skipped because
its installation id is falsy), and the second handler's body is an
object, not a JSON array. -/
theorem C9_counterexample :
    mapHas c9State.orgRepositories "o" = true
      ∧ mapGet c9State.orgRepositories "o" = some ["o/r"]
      ∧ (checkIfSafeToUse c9State "o" c9Fetch).status = 200
      ∧ (checkIfSafeToUse c9State "o" c9Fetch).body = .varr []
      ∧ (checkIfSafeToUseV2 c9State "o" c9Fetch).body
          = .vobj [("org", .vstr "o"), ("reports", .varr [])] :=
  ⟨rfl, rfl, rfl, rfl, rfl⟩

/-- C9 (amended): for a registered org both handlers respond 200 without
mutating the registry; the first handler's body is a JSON array with one
`{repoFullName, codeql|dependabot|error}` entry per repository of the
org whose installation id is present and truthy (repos with an absent or
falsy id are skipped), in order, and the second handler wraps that same
array in an `{org, reports}` object. -/
theorem C9_checkIfSafeToUse_known_org (st : RegistryState) (org : String)
    (fetch : String → FetchResult) (repos : List String)
    (h : mapGet st.orgRepositories org = some repos) :
    (checkIfSafeToUse st org fetch).status = 200
      ∧ (checkIfSafeToUse st org fetch).state = st
      ∧ (checkIfSafeToUseV2 st org fetch).status = 200
      ∧ (checkIfSafeToUseV2 st org fetch).state = st
      ∧ ∃ entries, (checkIfSafeToUse st org fetch).body = .varr entries
          ∧ (checkIfSafeToUseV2 st org fetch).body
              = .vobj [("org", .vstr org), ("reports", .varr entries)]
          ∧ List.Forall₂ (fun r e =>
                getProp e "repoFullName" = .vstr r
                ∧ ((∃ c d, e = .vobj [("repoFullName", .vstr r), ("codeql", c),
                      ("dependabot", d)])
                  ∨ ∃ msg, e = .vobj [("repoFullName", .vstr r), ("error", .vstr msg)]))
              (repos.filter (fun r => installedAndTruthy st r)) entries := by
  have hhas : mapHas st.orgRepositories org = true :=
    (mapHas_iff_mapGet _ _).mpr ⟨repos, h⟩
  unfold checkIfSafeToUse checkIfSafeToUseV2
  rw [hhas, h]
  simp only [Option.getD_some, if_true]
  refine ⟨trivial, trivial, trivial, trivial, collectReports st repos fetch, rfl, rfl, ?_⟩
  rw [collectReports_eq]
  exact forall₂_map_self _ _ _ (fun r _ => securityReport_spec r (fetch r))

/-- Witness for the amended C9 at a concrete registered org. -/
theorem C9_witness :
    (checkIfSafeToUse c9wState "ow2" c9wFetch).status = 200
      ∧ (checkIfSafeToUse c9wState "ow2" c9wFetch).state = c9wState
      ∧ (checkIfSafeToUseV2 c9wState "ow2" c9wFetch).status = 200
      ∧ (checkIfSafeToUseV2 c9wState "ow2" c9wFetch).state = c9wState
      ∧ ∃ entries, (checkIfSafeToUse c9wState "ow2" c9wFetch).body = .varr entries
          ∧ (checkIfSafeToUseV2 c9wState "ow2" c9wFetch).body
              = .vobj [("org", .vstr "ow2"), ("reports", .varr entries)]
          ∧ List.Forall₂ (fun r e =>
                getProp e "repoFullName" = .vstr r
                ∧ ((∃ c d, e = .vobj [("repoFullName", .vstr r), ("codeql", c),
                      ("dependabot", d)])
                  ∨ ∃ msg, e = .vobj [("repoFullName", .vstr r), ("error", .vstr msg)]))
              (["p/q"].filter (fun r => installedAndTruthy c9wState r)) entries :=
  C9_checkIfSafeToUse_known_org c9wState "ow2" c9wFetch ["p/q"] rfl

